import Mathlib

/-!
Verification development for the Spotify Pakistan charts dashboard
(`app.py`): a shallow embedding of the CSV ingestion / normalization
pipeline (`normalize_col`, `uri_to_url`, `load_local_data`) and of the
analytics transforms (filtering, table search, mover computation),
together with theorems settling the specification claims.

Modelling conventions:
* machine numbers produced by `pd.to_numeric` are modelled as `ℚ`
  (exact arithmetic; the chart data in scope is integer-valued);
* a pandas `DataFrame` is a `RawTable`: a header of column-name strings
  plus rows of `Cell`s; cells read from a CSV are all string cells;
* dates are abstract day numbers (`Nat`); the filename-date extraction
  of the Source Reader is represented by an `Option Nat` per source;
* `Option` models the skip / exception paths (`None` = the source is
  skipped, or — for the regex search — the call raises).
-/

namespace SpotifyDash

/-- Python `\s` or `_`: the separator characters collapsed by `normalize_col`
(`re.sub(r"[_\s]+", " ", c)`). -/
def isSep (c : Char) : Bool := c = '_' || c.isWhitespace

/-- Strip leading whitespace of a character list (one side of Python `str.strip`). -/
def dropWs (cs : List Char) : List Char := cs.dropWhile Char.isWhitespace

/-- Python `str.strip()` on a character list: drop whitespace on both ends. -/
def pyStripL (cs : List Char) : List Char := (dropWs (dropWs cs.reverse).reverse)

/-- Python `str.strip()` on a string. -/
def pyStrip (s : String) : String := String.mk (pyStripL s.data)

/-- Collapse every run of consecutive spaces to a single space (the effect of
`re.sub(r"[_\s]+", " ", ·)` after each separator has been mapped to a space). -/
def squeeze : List Char → List Char
  | [] => []
  | [c] => [c]
  | a :: b :: rest =>
      if a = ' ' && b = ' ' then squeeze (b :: rest) else a :: squeeze (b :: rest)

/-- `normalize_col` (app.py:36-39): strip, lowercase, and collapse every run of
whitespace/underscores to a single space.  (Lowercasing and mapping each
separator to a space commute, so both act in one pass over the characters;
separators are unchanged by lowercasing.) -/
def normalize_col (s : String) : String :=
  String.mk (squeeze ((pyStripL s.data).map (fun c => if isSep c then ' ' else c.toLower)))

/-- Decimal digit characters. -/
def isDig (c : Char) : Bool := '0' ≤ c && c ≤ '9'

/-- Numeric value of a digit character. -/
def digVal (c : Char) : Nat := c.toNat - '0'.toNat

/-- Fold a digit list into the `Nat` it denotes (most significant first). -/
def digitsVal (cs : List Char) : Nat := cs.foldl (fun a c => a * 10 + digVal c) 0

/-- `pd.to_numeric` on one cell value, modelled on the plain-decimal fragment:
optional sign, then digits with an optional fractional part (e.g. `"3"`,
`"-2"`, `"+4.5"`, `".5"`, `"1."`), with surrounding whitespace ignored.
Anything else (empty string, letters, multiple dots, …) fails coercion. -/
def parseUnsigned (cs : List Char) : Option ℚ :=
  let ip := cs.takeWhile isDig
  match cs.dropWhile isDig with
  | [] => if ip = [] then none else some (digitsVal ip)
  | '.' :: fp =>
      if fp.all isDig && (ip ≠ [] || fp ≠ []) then
        some ((digitsVal ip : ℚ) + (digitsVal fp : ℚ) / (10 : ℚ) ^ fp.length)
      else none
  | _ => none

/-- Numeric coercion of a raw string (see `parseUnsigned`): an optional
leading sign, then the unsigned part. -/
def parseNum (s : String) : Option ℚ :=
  match pyStripL s.data with
  | [] => none
  | c :: rest =>
      if c = '-' then (parseUnsigned rest).map Neg.neg
      else if c = '+' then parseUnsigned rest
      else parseUnsigned (c :: rest)

/-- Drop `p` as a literal leading pattern of `cs`; `none` when `cs` does not
start with `p` (the anchored part of `re.match`). -/
def dropPat : List Char → List Char → Option (List Char)
  | [], cs => some cs
  | p :: ps, cs =>
      match cs with
      | [] => none
      | c :: cs0 => if p = c then dropPat ps cs0 else none

/-- `uri_to_url` (app.py:42-49) on the stripped character list: `re.match` of
`spotify:track:([A-Za-z0-9]+)` anchors at the start, requires at least one
alphanumeric identifier character, captures the maximal alphanumeric run, and
ignores whatever follows it; on no match the result is `""`. -/
def uriToUrlCore (cs : List Char) : String :=
  match dropPat "spotify:track:".data cs with
  | none => ""
  | some rest =>
      if rest.takeWhile Char.isAlphanum = [] then ""
      else "https://open.spotify.com/track/" ++ String.mk (rest.takeWhile Char.isAlphanum)

/-- `uri_to_url` (app.py:42-49) on a string cell value: Python first strips the
URI, then regex-matches it. -/
def uri_to_url (s : String) : String := uriToUrlCore (pyStripL s.data)

/-- A dataframe cell: a raw string (as read from CSV), a number (after
`pd.to_numeric`), a date (after `df["Date"] = d`), or `NaN`. -/
inductive Cell where
  | str (s : String)
  | num (q : ℚ)
  | date (d : Nat)
  | na
  deriving DecidableEq, Repr

/-- A pandas `DataFrame`: named columns over rows of cells.  Rows are assumed
rectangular; a missing cell reads as `Cell.na`. -/
structure RawTable where
  header : List String
  rows : List (List Cell)
  deriving DecidableEq, Repr

/-- Index of the first column with the given name (`df.columns` lookup). -/
def colIdx (t : RawTable) (name : String) : Option Nat :=
  t.header.indexOf? name

/-- `name in df.columns`. -/
def hasCol (t : RawTable) (name : String) : Bool :=
  t.header.contains name

/-- Cell of a row at column index `i` (`Cell.na` when out of range). -/
def cellAt (row : List Cell) (i : Nat) : Cell := row.getD i Cell.na

/-- Cell of a row in the column named `name` (first occurrence). -/
def cellIn (t : RawTable) (name : String) (row : List Cell) : Cell :=
  match colIdx t name with
  | some i => cellAt row i
  | none => Cell.na

/-- The values of the column named `name` (`df[name]`). -/
def getCol (t : RawTable) (name : String) : List Cell :=
  t.rows.map (cellIn t name)

/-- `df[name] = c` with a constant value: overwrite the column in place if it
exists, else append it as a new last column. -/
def setColConst (t : RawTable) (name : String) (c : Cell) : RawTable :=
  match colIdx t name with
  | some i => { header := t.header, rows := t.rows.map (fun r => r.set i c) }
  | none => { header := t.header ++ [name], rows := t.rows.map (fun r => r ++ [c]) }

/-- `df[target] = df[src].map f` where `target` is absent: append a new column
computed per-row from the column named `src`. -/
def addMappedCol (t : RawTable) (target src : String) (f : Cell → Cell) : RawTable :=
  { header := t.header ++ [target],
    rows := t.rows.map (fun r => r ++ [f (cellIn t src r)]) }

/-- `df[name] = f(df[name])`: transform the (existing) column in place. -/
def mapCol (t : RawTable) (name : String) (f : Cell → Cell) : RawTable :=
  match colIdx t name with
  | some i => { header := t.header, rows := t.rows.map (fun r => r.set i (f (cellAt r i))) }
  | none => t

/-- Canonical rename target of one (already stripped) column name
(app.py:72-87): first matching alias class wins; an unrecognized name is kept
unchanged. -/
def renameTarget (c : String) : String :=
  if normalize_col c ∈ ["position", "rank", "chart position"] then "Position"
  else if normalize_col c ∈ ["track name", "track", "trackname", "song", "title"] then "Track"
  else if normalize_col c ∈ ["artist", "artist name", "artist names", "artistname", "artistnames"] then "Artist"
  else if normalize_col c ∈ ["streams", "stream"] then "Streams"
  else if normalize_col c ∈ ["url", "track url", "spotify url"] then "URL"
  else if normalize_col c ∈ ["uri"] then "URI"
  else c

/-- app.py:70 + 89: strip every column name, then apply the alias rename. -/
def stripRename (t : RawTable) : RawTable :=
  { header := t.header.map (fun c => renameTarget (pyStrip c)), rows := t.rows }

/-- `uri_to_url` lifted to a cell: Python returns `""` on any non-string input
(app.py:43-44). -/
def uriToUrlCell : Cell → Cell
  | Cell.str s => Cell.str (uri_to_url s)
  | _ => Cell.str ""

/-- app.py:91-96: when no `URL` column resulted, synthesize it from `URI`
(per-entry `uri_to_url`) or as the empty string. -/
def ensureUrl (t : RawTable) : RawTable :=
  if hasCol t "URL" then t
  else if hasCol t "URI" then addMappedCol t "URL" "URI" uriToUrlCell
  else setColConst t "URL" (Cell.str "")

/-- `pd.to_numeric(·, errors="coerce")` on one cell. -/
def toNumericCell : Cell → Cell
  | Cell.str s => match parseNum s with
      | some q => Cell.num q
      | none => Cell.na
  | Cell.num q => Cell.num q
  | _ => Cell.na

/-- `df.dropna(subset=names)`: keep the rows whose cells in all the listed
columns are not `NaN`. -/
def dropNa (t : RawTable) (names : List String) : RawTable :=
  { header := t.header,
    rows := t.rows.filter (fun r => names.all (fun n => cellIn t n r ≠ Cell.na)) }

/-- The per-source half of `load_local_data` (app.py:70-112): strip + rename
the columns, synthesize `URL`, gate on `Position`/`Streams`, default
`Track`/`Artist` to `"Unknown"`, coerce `Position`/`Streams` to numeric,
attach the file date, and drop the rows whose coercion failed.  `none` is the
`continue` path (the source contributes nothing). -/
def normalizeSource (d : Nat) (t0 : RawTable) : Option RawTable :=
  let t1 := ensureUrl (stripRename t0)
  -- app.py:99-100: `if "Position" not in df.columns or "Streams" not in df.columns: continue`
  if hasCol t1 "Position" && hasCol t1 "Streams" then
    let t2 := if hasCol t1 "Track" then t1 else setColConst t1 "Track" (Cell.str "Unknown")
    let t3 := if hasCol t2 "Artist" then t2 else setColConst t2 "Artist" (Cell.str "Unknown")
    let t4 := mapCol t3 "Position" toNumericCell
    let t5 := mapCol t4 "Streams" toNumericCell
    let t6 := setColConst t5 "Date" (Cell.date d)
    some (dropNa t6 ["Position", "Streams"])
  else none

/-- One step of the column-union fold: append the columns of `t` not seen
yet. -/
def unionStep (acc : List String) (t : RawTable) : List String :=
  acc ++ t.header.filter (fun c => ¬ acc.contains c)

/-- Union of the headers of a table list in order of first appearance (the
column alignment `pd.concat` performs). -/
def unionHeaders (ts : List RawTable) : List String :=
  ts.foldl unionStep []

/-- Re-index one row of table `t` under the concatenated header `hs`, filling
columns absent from `t` with `NaN`. -/
def alignRow (hs : List String) (t : RawTable) (row : List Cell) : List Cell :=
  hs.map (fun c => cellIn t c row)

/-- `pd.concat(ts, ignore_index=True)`: align all tables on the union of their
columns and stack the rows. -/
def concatTables (ts : List RawTable) : RawTable :=
  let hs := unionHeaders ts
  { header := hs, rows := ts.flatMap (fun t => t.rows.map (alignRow hs t)) }

/-- Canonical column order of the merged table (app.py:119). -/
def canonicalCols : List String :=
  ["Date", "Position", "Track", "Artist", "Streams", "URL"]

/-- `out[keep]` (app.py:119-120): project onto the canonical columns that are
present, in the fixed canonical order. -/
def keepCanonical (t : RawTable) : RawTable :=
  let keep := canonicalCols.filter (fun c => hasCol t c)
  { header := keep, rows := t.rows.map (alignRow keep t) }

/-- `astype(str)` on a cell; in this pipeline `Track`/`Artist` cells are
always string cells already, so only the first case is ever exercised. -/
def cellAsStr : Cell → Cell
  | Cell.str s => Cell.str s
  | Cell.num q => Cell.str (toString q)
  | Cell.date d => Cell.str (toString d)
  | Cell.na => Cell.str "nan"

/-- `load_local_data` (app.py:52-123) over its sources: each source is the
filename-extracted date (`none` when the filename holds no parseable date,
app.py:61-63) together with the raw table read from the CSV.  Sources whose
date is missing or whose schema fails the gate contribute nothing; the rest
are concatenated, projected onto the canonical columns, and `Track`/`Artist`
are cast to strings. -/
def load_local_data (sources : List (Option Nat × RawTable)) : RawTable :=
  let tables := sources.filterMap (fun s => s.1.bind (fun d => normalizeSource d s.2))
  if tables.isEmpty then { header := [], rows := [] }
  else
    let out := keepCanonical (concatTables tables)
    mapCol (mapCol out "Track" cellAsStr) "Artist" cellAsStr

/-- A row of the merged table (`ChartEntry` of the spec), as the analytics
sections read it. -/
structure Entry where
  date : Nat
  position : ℚ
  track : String
  artist : String
  streams : ℚ
  url : String
  deriving DecidableEq, Repr

/-- Numeric value of a cell (the analytics only read `Position`/`Streams`
cells, which are numeric in every merged table). -/
def qOf : Cell → ℚ
  | Cell.num q => q
  | _ => 0

/-- Date value of a cell. -/
def dOf : Cell → Nat
  | Cell.date d => d
  | _ => 0

/-- String value of a cell. -/
def sOf : Cell → String
  | Cell.str s => s
  | _ => ""

/-- Read the merged table as a list of `Entry` records (column access by
canonical name, as the analytics code does). -/
def entriesOf (t : RawTable) : List Entry :=
  t.rows.map (fun r =>
    { date := dOf (cellIn t "Date" r), position := qOf (cellIn t "Position" r),
      track := sOf (cellIn t "Track" r), artist := sOf (cellIn t "Artist" r),
      streams := qOf (cellIn t "Streams" r), url := sOf (cellIn t "URL" r) })

/-! ### Regular-expression search (`Series.str.contains`, default `regex=True`)

`str.contains(pat, case=False)` compiles `pat` with `re.IGNORECASE` and tests
`re.search` per entry.  The embedding models the fragment of Python regex
syntax in which every character is a literal except `.` (match any character
but a newline); a pattern containing any other regex metacharacter is outside
the modelled fragment and is mapped to `none` (for the metacharacters the
claims exercise — lone `+`, `(`, `[` — Python indeed raises `re.error`). -/

/-- One parsed pattern atom. -/
inductive RAtom where
  | lit (c : Char)
  | dot
  deriving DecidableEq, Repr

/-- Python regex metacharacters. -/
def isMeta (c : Char) : Bool :=
  c ∈ ['.', '^', '$', '*', '+', '?', '{', '}', '[', ']', '\\', '|', '(', ')']

/-- Parse a pattern within the modelled fragment (literals and `.`). -/
def parseRe : List Char → Option (List RAtom)
  | [] => some []
  | c :: cs =>
      if c = '.' then (parseRe cs).map (fun ps => RAtom.dot :: ps)
      else if isMeta c then none
      else (parseRe cs).map (fun ps => RAtom.lit c :: ps)

/-- Does an atom match one character, under `re.IGNORECASE`? -/
def atomMatch : RAtom → Char → Bool
  | RAtom.lit a, c => a.toLower = c.toLower
  | RAtom.dot, c => c ≠ '\n'

/-- Anchored match of an atom list at the head of the text. -/
def matchHere : List RAtom → List Char → Bool
  | [], _ => true
  | _ :: _, [] => false
  | a :: ps, c :: cs => atomMatch a c && matchHere ps cs

/-- `re.search`: anchored match at some position of the text. -/
def reSearch (p : List RAtom) : List Char → Bool
  | [] => matchHere p []
  | c :: cs => matchHere p (c :: cs) || reSearch p cs

/-- Literal `as` occurs at the head of `bs`. -/
def startsWithL : List Char → List Char → Bool
  | [], _ => true
  | _ :: _, [] => false
  | a :: as, b :: bs => a = b && startsWithL as bs

/-- Literal `needle` occurs somewhere in the text. -/
def containsL (needle : List Char) : List Char → Bool
  | [] => startsWithL needle []
  | c :: cs => startsWithL needle (c :: cs) || containsL needle cs

/-- Case-insensitive substring containment of strings (what §4.4 "free-text
table search" asks for). -/
def containsCI (hay needle : String) : Bool :=
  containsL (needle.data.map Char.toLower) (hay.data.map Char.toLower)

/-- The data-table search (app.py:406-412): when the query is non-blank,
keep the entries whose `Track` or `Artist` matches the *raw* query string as
a case-insensitive regex; `none` models the exception raised on a pattern
outside the modelled fragment. -/
def tableSearch (q : String) (rows : List Entry) : Option (List Entry) :=
  if pyStrip q ≠ "" then
    (parseRe q.data).map (fun p =>
      rows.filter (fun e => reSearch p e.track.data || reSearch p e.artist.data))
  else some rows

/-! ### Sidebar filters and the two empty-result outcomes (app.py:195-251) -/

/-- The sidebar state the filter pass depends on. -/
structure Filters where
  startDate : Nat
  endDate : Nat
  rankMax : ℚ
  artistChoice : String
  keyword : String
  deriving Repr

/-- app.py:240-247: date-range filter, rank threshold, optional exact artist
match (sentinel `"(All)"` disables it), optional keyword regex filter on
`Track` (the keyword is stripped before use there). -/
def applyFilters (f : Filters) (rows : List Entry) : Option (List Entry) :=
  let r1 := rows.filter (fun e => f.startDate ≤ e.date && e.date ≤ f.endDate)
  let r2 := r1.filter (fun e => e.position ≤ f.rankMax)
  let r3 := if f.artistChoice ≠ "(All)" then r2.filter (fun e => e.artist = f.artistChoice) else r2
  if pyStrip f.keyword ≠ "" then
    (parseRe (pyStrip f.keyword).data).map (fun p => r3.filter (fun e => reSearch p e.track.data))
  else some r3

/-- Result of one render pass of the script body. -/
inductive Outcome where
  | noData
  | noRowsMatch
  | rendered (view : List Entry)
  deriving DecidableEq, Repr

/-- The script's top-level control flow around the two empty states:
`df.empty` → `st.error` + `st.stop()` before any section (app.py:195-201);
non-empty merge but empty filter result → `st.warning` + `st.stop()` for this
pass only (app.py:249-251); otherwise the sections render the filtered view. -/
def renderPass (merged : RawTable) (f : Filters) : Option Outcome :=
  if merged.rows.isEmpty then some Outcome.noData
  else
    match applyFilters f (entriesOf merged) with
    | none => none
    | some [] => some Outcome.noRowsMatch
    | some v => some (Outcome.rendered v)

/-! ### Mover computation (app.py:342-354)

`df_f.sort_values("Date")` sorts the filtered entries by date (ties keep a
deterministic order; pandas leaves tie order unspecified, the embedding fixes
the stable one).  `groupby("Track")["Position"].shift(1)` gives every row the
position of the nearest earlier row with the same `Track`; the rows with a
predecessor yield `rank_change = prev_rank - Position`, are grouped by
`(Track, Artist)` (pandas sorts group keys), aggregated with `max`/`min`,
sorted descending by `best_improvement`, truncated to 10 and rounded
(`Series.round` rounds half to even). -/

/-- Stable sort of the entries by date ascending (`sort_values("Date")`). -/
def sortByDate (rows : List Entry) : List Entry :=
  List.insertionSort (fun a b => a.date ≤ b.date) rows

/-- Update the running "last seen position per track" map. -/
def updAssoc : List (String × ℚ) → String → ℚ → List (String × ℚ)
  | [], k, v => [(k, v)]
  | (k0, v0) :: rest, k, v =>
      if k0 = k then (k, v) :: rest else (k0, v0) :: updAssoc rest k v

/-- `groupby("Track")["Position"].shift(1)` as a single pass: pair every row
with the position of the nearest earlier same-`Track` row (`none` at a
track's first appearance). -/
def shiftPrev (m : List (String × ℚ)) : List Entry → List (Entry × Option ℚ)
  | [] => []
  | e :: rest => (e, m.lookup e.track) :: shiftPrev (updAssoc m e.track e.position) rest

/-- The `(Track, Artist, rank_change)` rows surviving
`dropna(subset=["rank_change"])` (app.py:342-347). -/
def codeDeltas (rows : List Entry) : List (String × String × ℚ) :=
  (shiftPrev [] (sortByDate rows)).filterMap
    (fun pr => pr.2.map (fun p => (pr.1.track, pr.1.artist, p - pr.1.position)))

/-- Position of the last appearance of track `tr` within the already-seen
entries (the claim's "previous appearance"). -/
def lastPosOf (seen : List Entry) (tr : String) : Option ℚ :=
  ((seen.filter (fun e => e.track = tr)).getLast?).map (fun e => e.position)

/-- Claim-side delta computation: walk the date-sorted entries keeping the
seen prefix; every appearance after the track's first contributes
`previous_position - current_position`, tagged with the row's
`(track, artist)`; a first appearance contributes nothing. -/
def specDeltasAux (seen : List Entry) : List Entry → List (String × String × ℚ)
  | [] => []
  | e :: rest =>
      match lastPosOf seen e.track with
      | none => specDeltasAux (seen ++ [e]) rest
      | some p => (e.track, e.artist, p - e.position) :: specDeltasAux (seen ++ [e]) rest

/-- Claim-side deltas of a filtered entry collection. -/
def specDeltas (rows : List Entry) : List (String × String × ℚ) :=
  specDeltasAux [] (sortByDate rows)

/-- Lexicographic order on `(Track, Artist)` keys (pandas `groupby` sorts its
group keys). -/
def keyLe (a b : String × String) : Prop :=
  a.1 < b.1 ∨ (a.1 = b.1 ∧ a.2 ≤ b.2)

instance : DecidableRel keyLe := fun a b => by unfold keyLe; infer_instance

/-- The deltas of one `(Track, Artist)` group. -/
def deltasFor (ds : List (String × String × ℚ)) (k : String × String) : List ℚ :=
  (ds.filter (fun x => x.1 = k.1 && x.2.1 = k.2)).map (fun x => x.2.2)

/-- Maximum of a delta list (groups are nonempty by construction; `0` is an
unreachable default). -/
def maxQ : List ℚ → ℚ
  | [] => 0
  | h :: t => t.foldl max h

/-- Minimum of a delta list. -/
def minQ : List ℚ → ℚ
  | [] => 0
  | h :: t => t.foldl min h

/-- `Series.round(0)`: round to the nearest integer, ties to the even one
(IEEE half-even, which numpy uses). -/
def roundHalfEven (q : ℚ) : Int :=
  if q - (⌊q⌋ : ℚ) < 1 / 2 then ⌊q⌋
  else if 1 / 2 < q - (⌊q⌋ : ℚ) then ⌊q⌋ + 1
  else if ⌊q⌋ % 2 = 0 then ⌊q⌋ else ⌊q⌋ + 1

/-- One row of the movers table. -/
structure Mover where
  track : String
  artist : String
  best_improvement : Int
  worst_drop : Int
  deriving DecidableEq, Repr

/-- Group the delta rows by `(Track, Artist)` (keys sorted), aggregate with
`max`/`min`, sort descending by `best_improvement`, truncate to 10, round
(app.py:346-354). -/
def moversFromDeltas (ds : List (String × String × ℚ)) : List Mover :=
  let ks := List.insertionSort keyLe ((ds.map (fun x => (x.1, x.2.1))).dedup)
  let gs := ks.map (fun k => (k, maxQ (deltasFor ds k), minQ (deltasFor ds k)))
  let sorted := List.insertionSort (fun a b => b.2.1 ≤ a.2.1) gs
  (sorted.take 10).map (fun g =>
    { track := g.1.1, artist := g.1.2,
      best_improvement := roundHalfEven g.2.1, worst_drop := roundHalfEven g.2.2 })

/-- The movers table of app.py:342-354, from the filtered entries. -/
def movers (rows : List Entry) : List Mover :=
  moversFromDeltas (codeDeltas rows)

/-- The mover table as the claim words it: deltas per appearance-after-first,
then the same grouping/sorting/truncation/rounding. -/
def moversSpec (rows : List Entry) : List Mover :=
  moversFromDeltas (specDeltas rows)

/-! ### Canonical CSV rendering (round-trip harness for the idempotence claim) -/

/-- Decimal digit string of a natural number (most significant first). -/
def natDigits (n : Nat) : List Char :=
  if h : n < 10 then [Char.ofNat (48 + n)]
  else natDigits (n / 10) ++ [Char.ofNat (48 + n % 10)]
  termination_by n
  decreasing_by exact Nat.div_lt_self (by omega) (by omega)

/-- Decimal rendering of an integer. -/
def renderInt (i : Int) : String :=
  if i < 0 then String.mk ('-' :: natDigits i.natAbs) else String.mk (natDigits i.natAbs)

/-- One CSV row of a `ChartEntry`, under the canonical column order. -/
def renderRow (e : Entry) : List Cell :=
  [Cell.str (renderInt e.date), Cell.str (renderInt e.position.num),
   Cell.str e.track, Cell.str e.artist,
   Cell.str (renderInt e.streams.num), Cell.str e.url]

/-- Write a `ChartEntry` list back out as a canonical CSV table: exactly the
canonical column names, integer `position`/`streams` rendered in decimal
(an "already-canonical table" in the sense of §8.1). -/
def entriesToCsv (es : List Entry) : RawTable :=
  { header := canonicalCols, rows := es.map renderRow }

/-! ## Basic lemmas about the table operations -/

theorem hasCol_iff_mem {t : RawTable} {c : String} : hasCol t c = true ↔ c ∈ t.header := by
  simp [hasCol]

theorem header_mapCol (t : RawTable) (n : String) (f : Cell → Cell) :
    (mapCol t n f).header = t.header := by
  unfold mapCol; cases colIdx t n <;> rfl

theorem header_dropNa (t : RawTable) (ns : List String) :
    (dropNa t ns).header = t.header := rfl

theorem hasCol_setColConst_self (t : RawTable) (n : String) (v : Cell) :
    hasCol (setColConst t n v) n = true := by
  unfold setColConst
  cases h : colIdx t n with
  | some i =>
      have : n ∈ t.header := by
        have := List.indexOf?_eq_none_iff (a := n) (l := t.header)
        by_contra hn
        have hnone : colIdx t n = none := by
          unfold colIdx
          rw [List.indexOf?_eq_none_iff]
          intro x hx
          simp only [beq_iff_eq]
          intro hxe; exact hn (hxe ▸ hx)
        rw [h] at hnone; cases hnone
      simpa [hasCol]
  | none => simp [hasCol]

theorem hasCol_setColConst_of {t : RawTable} {c : String} (n : String) (v : Cell)
    (h : hasCol t c = true) : hasCol (setColConst t n v) c = true := by
  unfold setColConst
  cases colIdx t n with
  | some i => simpa [hasCol] using h
  | none =>
      rw [hasCol_iff_mem] at h ⊢
      simp [h]

theorem hasCol_ensureUrl_url (t : RawTable) : hasCol (ensureUrl t) "URL" = true := by
  unfold ensureUrl
  split
  · assumption
  · split
    · simp [hasCol, addMappedCol]
    · exact hasCol_setColConst_self _ _ _

theorem hasCol_ensureUrl_ne {c : String} (t : RawTable) (hc : c ≠ "URL") :
    hasCol (ensureUrl t) c = hasCol t c := by
  unfold ensureUrl
  split
  · rfl
  · split
    · simp [hasCol, addMappedCol, hc]
    · unfold setColConst
      cases colIdx t "URL" with
      | some i => rfl
      | none => simp [hasCol, hc]

theorem hasCol_mapCol (t : RawTable) (n : String) (f : Cell → Cell) (c : String) :
    hasCol (mapCol t n f) c = hasCol t c := by
  simp [hasCol, header_mapCol]

theorem hasCol_dropNa (t : RawTable) (ns : List String) (c : String) :
    hasCol (dropNa t ns) c = hasCol t c := by
  simp [hasCol, header_dropNa]

theorem hasCol_defaultCol_of {t : RawTable} {c : String} (n : String) (v : Cell)
    (h : hasCol t c = true) :
    hasCol (if hasCol t n = true then t else setColConst t n v) c = true := by
  split
  · exact h
  · exact hasCol_setColConst_of _ _ h

theorem hasCol_ensureUrl_of {t : RawTable} {c : String} (h : hasCol t c = true) :
    hasCol (ensureUrl t) c = true := by
  unfold ensureUrl
  split
  · exact h
  · split
    · rw [hasCol_iff_mem] at h ⊢; simp [addMappedCol, h]
    · exact hasCol_setColConst_of _ _ h

theorem indexOf?_append_left {α : Type} [BEq α] [LawfulBEq α] {a : α} {l₁ l₂ : List α}
    (h : a ∈ l₁) : List.indexOf? a (l₁ ++ l₂) = List.indexOf? a l₁ := by
  induction l₁ with
  | nil => cases h
  | cons x xs ih =>
      rw [List.cons_append, List.indexOf?_cons, List.indexOf?_cons]
      by_cases hx : x = a
      · simp [hx]
      · have hmem : a ∈ xs := by
          cases List.mem_cons.mp h with
          | inl he => exact absurd he.symm hx
          | inr hm => exact hm
        simp [hx, ih hmem]

theorem indexOf?_lt_length {α : Type} [BEq α] {a : α} {l : List α} {i : Nat}
    (h : List.indexOf? a l = some i) : i < l.length := by
  induction l generalizing i with
  | nil => cases h
  | cons x xs ih =>
      rw [List.indexOf?_cons] at h
      split at h
      · cases h; simp
      · cases hx : List.indexOf? a xs with
        | none => rw [hx] at h; cases h
        | some j =>
            rw [hx] at h
            cases h
            simpa using Nat.succ_lt_succ (ih hx)

theorem getElem?_of_indexOf? {α : Type} [BEq α] [LawfulBEq α] {a : α} {l : List α} {i : Nat}
    (h : List.indexOf? a l = some i) : l[i]? = some a := by
  induction l generalizing i with
  | nil => cases h
  | cons x xs ih =>
      rw [List.indexOf?_cons] at h
      split at h
      · cases h
        next hx => simp [eq_of_beq hx]
      · cases hx : List.indexOf? a xs with
        | none => rw [hx] at h; cases h
        | some j => rw [hx] at h; cases h; simpa using ih hx

theorem colIdx_isSome_of_hasCol {t : RawTable} {c : String} (h : hasCol t c = true) :
    ∃ i, colIdx t c = some i := by
  unfold colIdx
  cases hidx : List.indexOf? c t.header with
  | some i => exact ⟨i, rfl⟩
  | none =>
      rw [List.indexOf?_eq_none_iff] at hidx
      rw [hasCol_iff_mem] at h
      exact absurd (hidx c h) (by simp)

theorem header_get_of_colIdx {t : RawTable} {c : String} {i : Nat}
    (h : colIdx t c = some i) : t.header[i]? = some c :=
  getElem?_of_indexOf? h

theorem colIdx_lt_length {t : RawTable} {c : String} {i : Nat}
    (h : colIdx t c = some i) : i < t.header.length :=
  indexOf?_lt_length h

theorem colIdx_ne_of_name_ne {t : RawTable} {c₁ c₂ : String} {i j : Nat}
    (h₁ : colIdx t c₁ = some i) (h₂ : colIdx t c₂ = some j) (hne : c₁ ≠ c₂) : i ≠ j := by
  intro he
  subst he
  have hg₁ := header_get_of_colIdx h₁
  have hg₂ := header_get_of_colIdx h₂
  rw [hg₁] at hg₂
  exact hne (Option.some.inj hg₂)

/-- Rectangularity: every row has exactly one cell per header column (true of
every table read from a CSV). -/
def rect (t : RawTable) : Prop := ∀ r ∈ t.rows, r.length = t.header.length

theorem rect_stripRename {t : RawTable} (h : rect t) : rect (stripRename t) := by
  intro r hr
  simpa [stripRename] using h r hr

theorem rect_setColConst {t : RawTable} (h : rect t) (n : String) (v : Cell) :
    rect (setColConst t n v) := by
  intro r hr
  unfold setColConst at hr ⊢
  cases hc : colIdx t n with
  | some i =>
      rw [hc] at hr
      obtain ⟨r0, hr0, rfl⟩ := List.mem_map.mp hr
      simpa using h r0 hr0
  | none =>
      rw [hc] at hr
      obtain ⟨r0, hr0, rfl⟩ := List.mem_map.mp hr
      simp [h r0 hr0]

theorem rect_mapCol {t : RawTable} (h : rect t) (n : String) (f : Cell → Cell) :
    rect (mapCol t n f) := by
  intro r hr
  unfold mapCol at hr ⊢
  cases hc : colIdx t n with
  | some i =>
      rw [hc] at hr
      obtain ⟨r0, hr0, rfl⟩ := List.mem_map.mp hr
      simpa using h r0 hr0
  | none => rw [hc] at hr; exact h r hr

theorem rect_addMappedCol {t : RawTable} (h : rect t) (target src : String) (f : Cell → Cell) :
    rect (addMappedCol t target src f) := by
  intro r hr
  obtain ⟨r0, hr0, rfl⟩ := List.mem_map.mp hr
  simp [addMappedCol, h r0 hr0]

theorem rect_ensureUrl {t : RawTable} (h : rect t) : rect (ensureUrl t) := by
  unfold ensureUrl
  split
  · exact h
  · split
    · exact rect_addMappedCol h _ _ _
    · exact rect_setColConst h _ _

theorem rect_dropNa {t : RawTable} (h : rect t) (ns : List String) : rect (dropNa t ns) := by
  intro r hr
  exact h r (List.mem_filter.mp hr).1

/-! ## C3: the required-field gate -/

/-- A source holding only `Artist`, `Track` and `URL` columns (§8.3). -/
def atuSource : RawTable :=
  { header := ["Artist", "Track", "URL"],
    rows := [[Cell.str "a", Cell.str "t", Cell.str "u"]] }

/-- **C3**: when, after alias mapping, a source lacks the `Position` column or
the `Streams` column (in particular when it lacks both), the normalizer
discards the entire source (`none`, the silent `continue` path), and such a
source contributes zero rows to the merge; in particular a source with only
`Artist`, `Track` and `URL` columns yields an empty contribution. -/
theorem C3_required_field_gate :
    (∀ (d : Nat) (t : RawTable),
        hasCol (stripRename t) "Position" = false ∨ hasCol (stripRename t) "Streams" = false →
        normalizeSource d t = none) ∧
    normalizeSource 0 atuSource = none ∧
    load_local_data [(some 0, atuSource)] = { header := [], rows := [] } := by
  refine ⟨?_, by decide, by decide⟩
  intro d t h
  have hp : hasCol (ensureUrl (stripRename t)) "Position" = hasCol (stripRename t) "Position" :=
    hasCol_ensureUrl_ne _ (by decide)
  have hs : hasCol (ensureUrl (stripRename t)) "Streams" = hasCol (stripRename t) "Streams" :=
    hasCol_ensureUrl_ne _ (by decide)
  unfold normalizeSource
  rcases h with h | h <;> simp [hp, hs, h]

/-- Witness for C3 at a concrete input. -/
theorem C3_required_field_gate_witness :
    (hasCol (stripRename atuSource) "Position" = false ∨
      hasCol (stripRename atuSource) "Streams" = false) ∧
    normalizeSource 7 atuSource = none :=
  ⟨Or.inl (by decide), C3_required_field_gate.1 7 atuSource (Or.inl (by decide))⟩

/-! ## C6: fate of unrecognized columns -/

/-- A source with an unrecognized column `Foo` besides the mandatory ones. -/
def fooSource : RawTable :=
  { header := ["Position", "Streams", "Foo"],
    rows := [[Cell.str "1", Cell.str "2", Cell.str "x"]] }

/-- Value of `normalizeSource 0 fooSource`: the unrecognized column is still
present after per-source normalization. -/
def fooNormalized : RawTable :=
  { header := ["Position", "Streams", "Foo", "URL", "Track", "Artist", "Date"],
    rows := [[Cell.num 1, Cell.num 2, Cell.str "x", Cell.str "",
              Cell.str "Unknown", Cell.str "Unknown", Cell.date 0]] }

/-- **C6 counterexample**: the claim says unrecognized columns are carried
through to the merged table; in fact the merge projection (app.py:119-120)
removes them — `Foo` survives alias mapping and per-source normalization but
is absent from the non-empty merged table. -/
theorem C6_counterexample :
    "Foo" ∈ (stripRename fooSource).header ∧
    (load_local_data [(some 0, fooSource)]).rows ≠ [] ∧
    "Foo" ∉ (load_local_data [(some 0, fooSource)]).header := by decide

/-- **C6 amended**: unrecognized columns are carried through the per-source
normalization (every column present after alias mapping is a column of the
normalized per-source table), but the merge step projects onto the canonical
columns, so the merged table's columns are always among the six canonical
ones and unrecognized columns never reach it. -/
theorem C6_amended :
    (∀ (d : Nat) (t u : RawTable), normalizeSource d t = some u →
        ∀ c : String, hasCol (stripRename t) c = true → hasCol u c = true) ∧
    (∀ sources : List (Option Nat × RawTable),
        ∀ c ∈ (load_local_data sources).header, c ∈ canonicalCols) := by
  constructor
  · intro d t u h c hc
    unfold normalizeSource at h
    by_cases hg : (hasCol (ensureUrl (stripRename t)) "Position" &&
        hasCol (ensureUrl (stripRename t)) "Streams") = true
    · rw [if_pos hg] at h
      have hu := Option.some.inj h
      have h1 : hasCol (ensureUrl (stripRename t)) c = true := hasCol_ensureUrl_of hc
      have h2 := hasCol_defaultCol_of "Track" (Cell.str "Unknown") h1
      have h3 := hasCol_defaultCol_of "Artist" (Cell.str "Unknown") h2
      rw [← hu, hasCol_dropNa]
      refine hasCol_setColConst_of "Date" (Cell.date d) ?_
      rw [hasCol_mapCol, hasCol_mapCol]
      exact h3
    · rw [if_neg hg] at h; cases h
  · intro sources c hc
    unfold load_local_data at hc
    by_cases he : (sources.filterMap (fun s => s.1.bind (fun d => normalizeSource d s.2))).isEmpty = true
    · rw [if_pos he] at hc; cases hc
    · rw [if_neg he] at hc
      rw [header_mapCol, header_mapCol] at hc
      simp only [keepCanonical] at hc
      exact (List.mem_filter.mp hc).1

/-- Witness for C6's amended theorem at concrete inputs. -/
theorem C6_amended_witness :
    hasCol fooNormalized "Foo" = true ∧ "Date" ∈ canonicalCols :=
  ⟨C6_amended.1 0 fooSource fooNormalized (by decide) "Foo" (by decide),
   C6_amended.2 [(some 0, fooSource)] "Date" (by decide)⟩

/-! ## Cell-level lemmas for the coercion invariant -/

theorem cellAt_set_self {r : List Cell} {i : Nat} (h : i < r.length) (v : Cell) :
    cellAt (r.set i v) i = v := by
  simp [cellAt, List.getD, List.getElem?_set_self h]

theorem cellAt_set_ne {r : List Cell} {i j : Nat} (h : i ≠ j) (v : Cell) :
    cellAt (r.set i v) j = cellAt r j := by
  simp [cellAt, List.getD, List.getElem?_set_ne h]

theorem cellAt_append_lt {r : List Cell} {x : Cell} {i : Nat} (h : i < r.length) :
    cellAt (r ++ [x]) i = cellAt r i := by
  simp [cellAt, List.getD, List.getElem?_append_left h]

/-- A cell is a number or a `NaN` (the range of `pd.to_numeric`). -/
def isNumOrNa (c : Cell) : Prop := (∃ q : ℚ, c = Cell.num q) ∨ c = Cell.na

theorem toNumericCell_isNumOrNa (c : Cell) : isNumOrNa (toNumericCell c) := by
  cases c with
  | str s =>
      cases h : parseNum s with
      | some q => exact Or.inl ⟨q, by simp [toNumericCell, h]⟩
      | none => exact Or.inr (by simp [toNumericCell, h])
  | num q => exact Or.inl ⟨q, rfl⟩
  | date d => exact Or.inr rfl
  | na => exact Or.inr rfl

theorem colIdx_mapCol (t : RawTable) (n : String) (f : Cell → Cell) (c : String) :
    colIdx (mapCol t n f) c = colIdx t c := by
  simp [colIdx, header_mapCol]

theorem colIdx_dropNa (t : RawTable) (ns : List String) (c : String) :
    colIdx (dropNa t ns) c = colIdx t c := rfl

theorem colIdx_setColConst_of_hasCol {t : RawTable} {c : String} (n : String) (v : Cell)
    (h : hasCol t c = true) : colIdx (setColConst t n v) c = colIdx t c := by
  unfold setColConst
  cases hn : colIdx t n with
  | some i => rfl
  | none =>
      show List.indexOf? c (t.header ++ [n]) = _
      exact indexOf?_append_left (hasCol_iff_mem.mp h)

theorem rect_defaultCol {t : RawTable} (h : rect t) (n : String) (v : Cell) :
    rect (if hasCol t n = true then t else setColConst t n v) := by
  split
  · exact h
  · exact rect_setColConst h n v

/-- After `mapCol · n toNumericCell`, the cells in column `n` are numbers or
`NaN`s. -/
theorem mapCol_toNumeric_isNumOrNa {t : RawTable} {n : String} {i : Nat}
    (ht : rect t) (hi : colIdx t n = some i) :
    ∀ r ∈ (mapCol t n toNumericCell).rows, isNumOrNa (cellAt r i) := by
  intro r hr
  unfold mapCol at hr
  rw [hi] at hr
  obtain ⟨r0, hr0, rfl⟩ := List.mem_map.mp hr
  have hlen : i < r0.length := by
    rw [ht r0 hr0]
    exact colIdx_lt_length hi
  rw [cellAt_set_self hlen]
  exact toNumericCell_isNumOrNa _

/-- `mapCol` on another column leaves the cells of column index `i`
unchanged (up to choice of the originating row). -/
theorem mapCol_cellAt_other {t : RawTable} {n : String} {f : Cell → Cell} {i : Nat}
    (hne : ∀ j, colIdx t n = some j → j ≠ i) :
    ∀ r ∈ (mapCol t n f).rows, ∃ r0 ∈ t.rows, cellAt r i = cellAt r0 i := by
  intro r hr
  unfold mapCol at hr
  cases hn : colIdx t n with
  | some j =>
      rw [hn] at hr
      obtain ⟨r0, hr0, rfl⟩ := List.mem_map.mp hr
      exact ⟨r0, hr0, cellAt_set_ne (hne j hn) _⟩
  | none =>
      rw [hn] at hr
      exact ⟨r, hr, rfl⟩

/-- `setColConst` on another column leaves the cells of column index `i`
unchanged, provided rows are rectangular and `i` is a real column. -/
theorem setColConst_cellAt_other {t : RawTable} {n : String} {v : Cell} {i : Nat}
    (ht : rect t) (hlt : i < t.header.length)
    (hne : ∀ j, colIdx t n = some j → j ≠ i) :
    ∀ r ∈ (setColConst t n v).rows, ∃ r0 ∈ t.rows, cellAt r i = cellAt r0 i := by
  intro r hr
  unfold setColConst at hr
  cases hn : colIdx t n with
  | some j =>
      rw [hn] at hr
      obtain ⟨r0, hr0, rfl⟩ := List.mem_map.mp hr
      exact ⟨r0, hr0, cellAt_set_ne (hne j hn) _⟩
  | none =>
      rw [hn] at hr
      obtain ⟨r0, hr0, rfl⟩ := List.mem_map.mp hr
      refine ⟨r0, hr0, cellAt_append_lt ?_⟩
      rw [ht r0 hr0]
      exact hlt

/-- Every row surviving `normalizeSource` has a successfully coerced numeric
cell in the `Position` and `Streams` columns (the `dropna` filter removed the
rest); no lower bound on the value is imposed anywhere. -/
theorem normalizeSource_coerced_col {d : Nat} {t u : RawTable} (ht : rect t)
    (h : normalizeSource d t = some u) (n : String)
    (hn : n = "Position" ∨ n = "Streams") :
    ∀ r ∈ u.rows, ∃ q : ℚ, cellIn u n r = Cell.num q := by
  unfold normalizeSource at h
  set T1 := ensureUrl (stripRename t) with hT1E
  by_cases hg : (hasCol T1 "Position" && hasCol T1 "Streams") = true
  case neg => rw [if_neg hg] at h; cases h
  rw [if_pos hg] at h
  have hu := Option.some.inj h
  set T2 := if hasCol T1 "Track" = true then T1 else setColConst T1 "Track" (Cell.str "Unknown")
    with hT2E
  set T3 := if hasCol T2 "Artist" = true then T2 else setColConst T2 "Artist" (Cell.str "Unknown")
    with hT3E
  set T4 := mapCol T3 "Position" toNumericCell with hT4E
  set T5 := mapCol T4 "Streams" toNumericCell with hT5E
  set T6 := setColConst T5 "Date" (Cell.date d) with hT6E
  have hgP : hasCol T1 "Position" = true := (Bool.and_eq_true _ _ ▸ hg).1
  have hgS : hasCol T1 "Streams" = true := (Bool.and_eq_true _ _ ▸ hg).2
  have hr1 : rect T1 := rect_ensureUrl (rect_stripRename ht)
  have hr2 : rect T2 := rect_defaultCol hr1 _ _
  have hr3 : rect T3 := rect_defaultCol hr2 _ _
  have hr4 : rect T4 := rect_mapCol hr3 _ _
  have hr5 : rect T5 := rect_mapCol hr4 _ _
  have hP3 : hasCol T3 "Position" = true :=
    hasCol_defaultCol_of _ _ (hasCol_defaultCol_of _ _ hgP)
  have hS3 : hasCol T3 "Streams" = true :=
    hasCol_defaultCol_of _ _ (hasCol_defaultCol_of _ _ hgS)
  obtain ⟨i, hi3⟩ := colIdx_isSome_of_hasCol hP3
  have hi4 : colIdx T4 "Position" = some i := by rw [hT4E, colIdx_mapCol]; exact hi3
  have hi5 : colIdx T5 "Position" = some i := by rw [hT5E, colIdx_mapCol]; exact hi4
  have hS4 : hasCol T4 "Streams" = true := by rw [hT4E, hasCol_mapCol]; exact hS3
  obtain ⟨j, hj4⟩ := colIdx_isSome_of_hasCol hS4
  have hj5 : colIdx T5 "Streams" = some j := by rw [hT5E, colIdx_mapCol]; exact hj4
  have hji : j ≠ i := colIdx_ne_of_name_ne hj4 hi4 (by decide)
  have hP5 : hasCol T5 "Position" = true := by
    rw [hT5E, hasCol_mapCol, hT4E, hasCol_mapCol]; exact hP3
  have hS5 : hasCol T5 "Streams" = true := by rw [hT5E, hasCol_mapCol]; exact hS4
  -- the numeric invariant at the end of the per-source pipeline, per column
  have hkey : ∀ k : Nat, colIdx T5 n = some k → (∀ r ∈ T5.rows, isNumOrNa (cellAt r k)) →
      ∀ r ∈ u.rows, ∃ q : ℚ, cellIn u n r = Cell.num q := by
    intro k hk5 h5 r hru
    have hk6 : colIdx T6 n = some k := by
      rw [hT6E, colIdx_setColConst_of_hasCol _ _ (by
        rcases hn with rfl | rfl
        · exact hP5
        · exact hS5)]
      exact hk5
    have hku : colIdx u n = some k := by rw [← hu, colIdx_dropNa]; exact hk6
    rw [← hu] at hru
    have hm := List.mem_filter.mp hru
    have h6 : isNumOrNa (cellAt r k) := by
      obtain ⟨r0, hr0, he⟩ := setColConst_cellAt_other hr5 (colIdx_lt_length hk5)
        (fun k0 hk0 => colIdx_ne_of_name_ne hk0 hk5 (by
          rcases hn with rfl | rfl <;> decide)) r hm.1
      rw [he]; exact h5 r0 hr0
    have hpred := hm.2
    simp only [List.all_cons, List.all_nil, Bool.and_eq_true, decide_eq_true_eq] at hpred
    have hne : cellIn T6 n r ≠ Cell.na := by
      rcases hn with rfl | rfl
      · exact hpred.1
      · exact hpred.2.1
    rw [show cellIn T6 n r = cellAt r k by unfold cellIn; rw [hk6]] at hne
    rcases h6 with ⟨q, hq⟩ | hna
    · exact ⟨q, by unfold cellIn; rw [hku]; exact hq⟩
    · exact absurd hna hne
  rcases hn with rfl | rfl
  · exact hkey i hi5 (fun r hr => by
      obtain ⟨r0, hr0, he⟩ := mapCol_cellAt_other
        (fun j0 hj0 => by rw [hj4] at hj0; cases hj0; exact hji) r hr
      rw [he]
      exact mapCol_toNumeric_isNumOrNa hr3 hi3 r0 hr0)
  · exact hkey j hj5 (mapCol_toNumeric_isNumOrNa hr4 hj4)

/-! ## C4: the position invariant -/

/-- A source whose (numerically valid) position is `0`. -/
def zeroPosSource : RawTable :=
  { header := ["Position", "Streams"], rows := [[Cell.str "0", Cell.str "5"]] }

/-- Value of `normalizeSource 0 zeroPosSource`. -/
def zeroPosNormalized : RawTable :=
  { header := ["Position", "Streams", "URL", "Track", "Artist", "Date"],
    rows := [[Cell.num 0, Cell.num 5, Cell.str "", Cell.str "Unknown",
              Cell.str "Unknown", Cell.date 0]] }

/-- **C4 counterexample**: the claim says every normalized row satisfies
`position ≥ 1`; in fact the code never checks a lower bound — a source row
with position `"0"` passes numeric coercion and reaches the merged table with
position `0 < 1`. -/
theorem C4_counterexample :
    (entriesOf (load_local_data [(some 0, zeroPosSource)])).map Entry.position = [0] ∧
    ¬ ((1 : ℚ) ≤ 0) := by decide

/-- **C4 amended**: `position` (like `streams`) is numerically coerced and
rows failing either coercion are discarded — every surviving row of a
normalized source carries successfully coerced numeric `Position` and
`Streams` cells — but no `≥ 1` bound is enforced, so any numeric position
(including `0` or negatives) survives. -/
theorem C4_amended :
    ∀ (d : Nat) (t u : RawTable), rect t → normalizeSource d t = some u →
      ∀ r ∈ u.rows,
        (∃ q : ℚ, cellIn u "Position" r = Cell.num q) ∧
        (∃ q : ℚ, cellIn u "Streams" r = Cell.num q) :=
  fun _ _ _ ht h r hr =>
    ⟨normalizeSource_coerced_col ht h "Position" (Or.inl rfl) r hr,
     normalizeSource_coerced_col ht h "Streams" (Or.inr rfl) r hr⟩

/-- Witness for C4's amended theorem at a concrete input. -/
theorem C4_amended_witness :
    (∃ q : ℚ, cellIn zeroPosNormalized "Position"
        [Cell.num 0, Cell.num 5, Cell.str "", Cell.str "Unknown",
         Cell.str "Unknown", Cell.date 0] = Cell.num q) ∧
    (∃ q : ℚ, cellIn zeroPosNormalized "Streams"
        [Cell.num 0, Cell.num 5, Cell.str "", Cell.str "Unknown",
         Cell.str "Unknown", Cell.date 0] = Cell.num q) :=
  C4_amended 0 zeroPosSource zeroPosNormalized
    (by intro r hr; simp only [zeroPosSource, List.mem_singleton] at hr; subst hr; rfl)
    (by decide) _ (by decide)

/-! ## C8: the two empty-result conditions -/

/-- **C8**: the two empty states are distinguished.  A merged table with zero
rows yields the terminal `noData` outcome (the `st.error` + `st.stop()` path,
before any section renders) regardless of the filters; a non-empty merge
whose filter pass yields zero rows produces the distinct `noRowsMatch`
warning outcome for that render pass only; and a later pass whose (relaxed)
filters select a non-empty view renders normally. -/
theorem C8_empty_states :
    ∀ (merged : RawTable) (f g : Filters) (v : List Entry),
      (merged.rows = [] → renderPass merged f = some Outcome.noData) ∧
      (merged.rows ≠ [] → applyFilters f (entriesOf merged) = some [] →
        renderPass merged f = some Outcome.noRowsMatch) ∧
      (merged.rows ≠ [] → applyFilters g (entriesOf merged) = some v → v ≠ [] →
        renderPass merged g = some (Outcome.rendered v)) ∧
      Outcome.noData ≠ Outcome.noRowsMatch := by
  intro merged f g v
  refine ⟨?_, ?_, ?_, by decide⟩
  · intro he
    unfold renderPass
    rw [if_pos (by simp [he])]
  · intro hne hf
    unfold renderPass
    rw [if_neg (by simp [hne]), hf]
  · intro hne hg hv
    unfold renderPass
    rw [if_neg (by simp [hne]), hg]
    cases v with
    | nil => exact absurd rfl hv
    | cons a l => rfl

/-- Witness for C8 at concrete inputs: an empty merge gives `noData`; a
one-row merge whose rank filter excludes everything gives `noRowsMatch`; the
relaxed rank filter renders the row. -/
theorem C8_empty_states_witness :
    renderPass { header := [], rows := [] }
        { startDate := 0, endDate := 9, rankMax := 1, artistChoice := "(All)", keyword := "" } =
      some Outcome.noData ∧
    renderPass (load_local_data [(some 0, zeroPosSource)])
        { startDate := 5, endDate := 9, rankMax := 1, artistChoice := "(All)", keyword := "" } =
      some Outcome.noRowsMatch ∧
    renderPass (load_local_data [(some 0, zeroPosSource)])
        { startDate := 0, endDate := 9, rankMax := 1, artistChoice := "(All)", keyword := "" } =
      some (Outcome.rendered (entriesOf (load_local_data [(some 0, zeroPosSource)]))) :=
  ⟨(C8_empty_states { header := [], rows := [] }
      { startDate := 0, endDate := 9, rankMax := 1, artistChoice := "(All)", keyword := "" }
      { startDate := 0, endDate := 9, rankMax := 1, artistChoice := "(All)", keyword := "" }
      []).1 rfl,
   (C8_empty_states (load_local_data [(some 0, zeroPosSource)])
      { startDate := 5, endDate := 9, rankMax := 1, artistChoice := "(All)", keyword := "" }
      { startDate := 5, endDate := 9, rankMax := 1, artistChoice := "(All)", keyword := "" }
      []).2.1 (by decide) (by decide),
   (C8_empty_states (load_local_data [(some 0, zeroPosSource)])
      { startDate := 0, endDate := 9, rankMax := 1, artistChoice := "(All)", keyword := "" }
      { startDate := 0, endDate := 9, rankMax := 1, artistChoice := "(All)", keyword := "" }
      (entriesOf (load_local_data [(some 0, zeroPosSource)]))).2.2.1
      (by decide) (by decide) (by decide)⟩

/-! ## C5: URL derivation from URIs -/

theorem dropPat_sound {p cs r : List Char} (h : dropPat p cs = some r) : cs = p ++ r := by
  induction p generalizing cs with
  | nil => exact (Option.some.inj h) ▸ rfl
  | cons x xs ih =>
      cases cs with
      | nil => cases h
      | cons c cs0 =>
          unfold dropPat at h
          dsimp only at h
          by_cases hx : x = c
          · rw [if_pos hx] at h
            rw [List.cons_append, ← hx, ih h]
          · rw [if_neg hx] at h; cases h

theorem dropPat_refl_append (p r : List Char) : dropPat p (p ++ r) = some r := by
  induction p with
  | nil => rfl
  | cons x xs ih => simpa [dropPat] using ih

theorem takeWhile_append_all {p : Char → Bool} {tid rest : List Char}
    (h : tid.all p = true) (hr : rest = [] ∨ ∃ c cs, rest = c :: cs ∧ p c = false) :
    (tid ++ rest).takeWhile p = tid := by
  induction tid with
  | nil =>
      rcases hr with rfl | ⟨c, cs, rfl, hc⟩
      · rfl
      · simp [List.takeWhile_cons, hc]
  | cons x xs ih =>
      rw [List.all_cons, Bool.and_eq_true] at h
      rw [List.cons_append, List.takeWhile_cons, if_pos h.1, ih h.2]

theorem indexOf?_eq_none_of_not_mem {α : Type} [BEq α] [LawfulBEq α] {a : α} {l : List α}
    (h : a ∉ l) : List.indexOf? a l = none := by
  rw [List.indexOf?_eq_none_iff]
  intro x hx hbeq
  exact h (eq_of_beq hbeq ▸ hx)

theorem indexOf?_append_self {α : Type} [BEq α] [LawfulBEq α] {a : α} {l : List α}
    (h : a ∉ l) : List.indexOf? a (l ++ [a]) = some l.length := by
  induction l with
  | nil => simp [List.indexOf?_cons]
  | cons x xs ih =>
      have hx : x ≠ a := fun he => h (he ▸ List.mem_cons_self x xs)
      have hxs : a ∉ xs := fun hm => h (List.mem_cons_of_mem _ hm)
      rw [List.cons_append, List.indexOf?_cons, if_neg (by simpa using hx), ih hxs]
      rfl

/-- Reading the freshly appended column of `addMappedCol`. -/
theorem getCol_addMappedCol {t : RawTable} {target : String} (src : String) (f : Cell → Cell)
    (ht : rect t) (h : hasCol t target = false) :
    getCol (addMappedCol t target src f) target = (getCol t src).map f := by
  have hnm : target ∉ t.header := fun hm => by rw [hasCol_iff_mem.mpr hm] at h; cases h
  have hidx : colIdx (addMappedCol t target src f) target = some t.header.length := by
    show List.indexOf? target (t.header ++ [target]) = _
    exact indexOf?_append_self hnm
  have hrows : (addMappedCol t target src f).rows =
      t.rows.map (fun r => r ++ [f (cellIn t src r)]) := rfl
  unfold getCol
  rw [hrows, List.map_map, List.map_map]
  refine List.map_congr_left ?_
  intro r hr
  show cellIn (addMappedCol t target src f) target (r ++ [f (cellIn t src r)]) =
    f (cellIn t src r)
  unfold cellIn
  rw [hidx]
  dsimp only
  rw [← ht r hr]
  simp [cellAt, List.getD]

/-- Reading the freshly appended constant column of `setColConst`. -/
theorem getCol_setColConst_new {t : RawTable} {n : String} (v : Cell)
    (ht : rect t) (h : hasCol t n = false) :
    getCol (setColConst t n v) n = t.rows.map (fun _ => v) := by
  have hnm : n ∉ t.header := fun hm => by rw [hasCol_iff_mem.mpr hm] at h; cases h
  have hnone : colIdx t n = none := indexOf?_eq_none_of_not_mem hnm
  have hrows : (setColConst t n v).rows = t.rows.map (fun r => r ++ [v]) := by
    unfold setColConst
    rw [hnone]
  have hhd : (setColConst t n v).header = t.header ++ [n] := by
    unfold setColConst
    rw [hnone]
  have hidx : colIdx (setColConst t n v) n = some t.header.length := by
    unfold colIdx
    rw [hhd]
    exact indexOf?_append_self hnm
  unfold getCol
  rw [hrows, List.map_map]
  refine List.map_congr_left ?_
  intro r hr
  show cellIn (setColConst t n v) n (r ++ [v]) = v
  unfold cellIn
  rw [hidx]
  show cellAt (r ++ [v]) t.header.length = v
  rw [← ht r hr]
  simp [cellAt, List.getD]

/-- **C5**: when a source has no `URL` column, the `URL` column is synthesized
per entry from `URI` via `uri_to_url` when a `URI` column exists, and as the
empty string for every row otherwise; a (stripped) URI of the shape
`spotify:track:<id>` with `<id>` a maximal nonempty alphanumeric run maps to
`https://open.spotify.com/track/<id>`, any URI not starting with
`spotify:track:` followed by an alphanumeric character maps to `""`; in
particular `spotify:track:6habFhsOp2NvshLv26DqMb` maps to the corresponding
open.spotify.com link and `not-a-uri` to `""`. -/
theorem C5_url_derivation :
    (∀ t : RawTable, rect t → hasCol t "URL" = false → hasCol t "URI" = true →
        getCol (ensureUrl t) "URL" = (getCol t "URI").map uriToUrlCell) ∧
    (∀ t : RawTable, rect t → hasCol t "URL" = false → hasCol t "URI" = false →
        getCol (ensureUrl t) "URL" = t.rows.map (fun _ => Cell.str "")) ∧
    (∀ (u : String) (tid rest : List Char),
        pyStripL u.data = "spotify:track:".data ++ (tid ++ rest) →
        tid ≠ [] → tid.all Char.isAlphanum = true →
        (rest = [] ∨ ∃ c cs, rest = c :: cs ∧ c.isAlphanum = false) →
        uri_to_url u = "https://open.spotify.com/track/" ++ String.mk tid) ∧
    (∀ u : String,
        (¬ ∃ c rest, pyStripL u.data = "spotify:track:".data ++ (c :: rest) ∧
            c.isAlphanum = true) →
        uri_to_url u = "") ∧
    uri_to_url "spotify:track:6habFhsOp2NvshLv26DqMb" =
      "https://open.spotify.com/track/6habFhsOp2NvshLv26DqMb" ∧
    uri_to_url "not-a-uri" = "" := by
  refine ⟨?_, ?_, ?_, ?_, by decide, by decide⟩
  · intro t ht hurl huri
    unfold ensureUrl
    rw [if_neg (by simp [hurl]), if_pos huri]
    exact getCol_addMappedCol _ _ ht hurl
  · intro t ht hurl huri
    unfold ensureUrl
    rw [if_neg (by simp [hurl]), if_neg (by simp [huri])]
    exact getCol_setColConst_new _ ht hurl
  · intro u tid rest hstrip htid hall hrest
    unfold uri_to_url uriToUrlCore
    rw [hstrip, dropPat_refl_append]
    dsimp only
    rw [takeWhile_append_all hall hrest, if_neg htid]
  · intro u hno
    unfold uri_to_url uriToUrlCore
    cases hdp : dropPat "spotify:track:".data (pyStripL u.data) with
    | none => rfl
    | some r =>
        have hr := dropPat_sound hdp
        cases r with
        | nil => rfl
        | cons c cs =>
            have hc : c.isAlphanum = false := by
              by_cases hct : c.isAlphanum = true
              · exact absurd ⟨c, cs, hr, hct⟩ hno
              · simpa using hct
            have htw : (c :: cs).takeWhile Char.isAlphanum = [] := by
              rw [List.takeWhile_cons, if_neg (by simp [hc])]
            dsimp only
            rw [htw]
            rfl

/-- A source exposing only a `URI` column (besides nothing else). -/
def uriOnlySource : RawTable :=
  { header := ["URI"], rows := [[Cell.str "spotify:track:x1"]] }

/-- A source with neither `URL` nor `URI`. -/
def noUriSource : RawTable :=
  { header := ["Position"], rows := [[Cell.str "1"]] }

/-- Witness for C5 at concrete inputs. -/
theorem C5_url_derivation_witness :
    getCol (ensureUrl uriOnlySource) "URL" = (getCol uriOnlySource "URI").map uriToUrlCell ∧
    getCol (ensureUrl noUriSource) "URL" = noUriSource.rows.map (fun _ => Cell.str "") ∧
    uri_to_url "  spotify:track:ab12  " = "https://open.spotify.com/track/ab12" ∧
    uri_to_url "not-a-uri" = "" :=
  ⟨C5_url_derivation.1 uriOnlySource
      (by intro r hr; simp only [uriOnlySource, List.mem_singleton] at hr; subst hr; rfl)
      (by decide) (by decide),
   C5_url_derivation.2.1 noUriSource
      (by intro r hr; simp only [noUriSource, List.mem_singleton] at hr; subst hr; rfl)
      (by decide) (by decide),
   C5_url_derivation.2.2.1 "  spotify:track:ab12  " "ab12".data [] (by decide) (by decide)
      (by decide) (Or.inl rfl),
   C5_url_derivation.2.2.2.1 "not-a-uri"
      (by rintro ⟨c, rest, heq, -⟩
          have hlen := congrArg List.length heq
          simp [pyStripL, dropWs] at hlen)⟩

/-! ## C7: table search -/

theorem parseRe_lit {cs : List Char} (h : ∀ c ∈ cs, isMeta c = false) :
    parseRe cs = some (cs.map RAtom.lit) := by
  induction cs with
  | nil => rfl
  | cons c cs0 ih =>
      have hc : isMeta c = false := h c (List.mem_cons_self c cs0)
      have hdot : c ≠ '.' := fun he => by rw [he] at hc; cases hc
      unfold parseRe
      rw [if_neg hdot, if_neg (by simp [hc]), ih (fun x hx => h x (List.mem_cons_of_mem _ hx))]
      rfl

theorem matchHere_lit (needle : List Char) :
    ∀ hay : List Char, matchHere (needle.map RAtom.lit) hay =
      startsWithL (needle.map Char.toLower) (hay.map Char.toLower) := by
  induction needle with
  | nil => intro hay; rfl
  | cons n ns ih =>
      intro hay
      cases hay with
      | nil => rfl
      | cons c cs => simp [matchHere, startsWithL, atomMatch, ih cs]

theorem reSearch_lit (needle hay : List Char) :
    reSearch (needle.map RAtom.lit) hay =
      containsL (needle.map Char.toLower) (hay.map Char.toLower) := by
  induction hay with
  | nil => simpa [reSearch, containsL] using matchHere_lit needle []
  | cons c cs ih => simp [reSearch, containsL, matchHere_lit needle (c :: cs), ih]

/-- The entry the search counterexample acts on. -/
def searchEntry : Entry :=
  { date := 0, position := 1, track := "abc", artist := "zz", streams := 0, url := "" }

/-- **C7 counterexample**: the table search treats the term as a regular
expression, not a substring.  The term `"."` keeps an entry although `"."` is
a substring of neither its track nor its artist, and the term `"+"` raises
(no filtered table at all) instead of excluding everything. -/
theorem C7_counterexample :
    tableSearch "." [searchEntry] = some [searchEntry] ∧
    containsCI searchEntry.track "." = false ∧
    containsCI searchEntry.artist "." = false ∧
    tableSearch "+" [searchEntry] = none := by decide

/-- **C7 amended**: the free-text table search interprets the term as a
case-insensitive regular expression over track OR artist (`str.contains`
defaults to `regex=True`).  For terms containing no regex metacharacter this
coincides with case-insensitive substring matching — exactly the entries with
the term as a substring of track or artist are kept — but terms containing
metacharacters are matched as regexes (or raise, e.g. lone `+`, `(`, `[`). -/
theorem C7_amended :
    ∀ (q : String) (rows : List Entry),
      pyStrip q ≠ "" → (∀ c ∈ q.data, isMeta c = false) →
      tableSearch q rows =
        some (rows.filter (fun e => containsCI e.track q || containsCI e.artist q)) := by
  intro q rows hq hmeta
  unfold tableSearch
  rw [if_pos hq, parseRe_lit hmeta]
  show some _ = some _
  refine congrArg some (List.filter_congr ?_)
  intro e _
  rw [reSearch_lit, reSearch_lit]
  rfl

/-- Witness for C7's amended theorem at a concrete input. -/
theorem C7_amended_witness :
    pyStrip "aB" ≠ "" ∧
    tableSearch "aB" [searchEntry] =
      some ([searchEntry].filter
        (fun e => containsCI e.track "aB" || containsCI e.artist "aB")) :=
  ⟨by decide, C7_amended "aB" [searchEntry] (by decide) (by decide)⟩

/-! ## C2: column-alias equivalence -/

theorem dropWhile_dropWhile (p : Char → Bool) (l : List Char) :
    List.dropWhile p (List.dropWhile p l) = List.dropWhile p l := by
  induction l with
  | nil => rfl
  | cons a as ih =>
      by_cases h : p a = true
      · simp [List.dropWhile_cons, h, ih]
      · simp [List.dropWhile_cons, h]

theorem head?_dropWhile_false {p : Char → Bool} {l : List Char} {c : Char}
    (h : (List.dropWhile p l).head? = some c) : p c = false := by
  induction l with
  | nil => cases h
  | cons a as ih =>
      rw [List.dropWhile_cons] at h
      split at h
      · exact ih h
      · next hn => cases h; simpa using hn

theorem getLast?_of_suffix {l s : List Char} (h : s <:+ l) (hs : s ≠ []) :
    s.getLast? = l.getLast? := by
  obtain ⟨t, rfl⟩ := h
  rw [List.getLast?_append]
  cases hq : s.getLast? with
  | none => exact absurd (List.getLast?_eq_none_iff.mp hq) hs
  | some x => rfl

theorem dropWhile_eq_self_of_head {p : Char → Bool} {l : List Char}
    (h : ∀ c, l.head? = some c → p c = false) : List.dropWhile p l = l := by
  cases l with
  | nil => rfl
  | cons a as => rw [List.dropWhile_cons, if_neg (by simp [h a rfl])]

/-- Python `str.strip` is idempotent. -/
theorem pyStripL_idem (cs : List Char) : pyStripL (pyStripL cs) = pyStripL cs := by
  unfold pyStripL
  set A := dropWs cs.reverse with hA
  set C := dropWs A.reverse with hC
  by_cases hCe : C = []
  · rw [hCe]; rfl
  · have hCsuffix : C <:+ A.reverse := by rw [hC]; exact List.dropWhile_suffix _
    have hlast : C.getLast? = A.head? := by
      rw [getLast?_of_suffix hCsuffix hCe, List.getLast?_reverse]
    have hrevC : dropWs C.reverse = C.reverse := by
      refine dropWhile_eq_self_of_head ?_
      intro c hc
      rw [List.head?_reverse, hlast] at hc
      exact head?_dropWhile_false (p := Char.isWhitespace) (hA ▸ hc)
    rw [hrevC, List.reverse_reverse, hC]
    exact dropWhile_dropWhile _ _

/-- `normalize_col` ignores surrounding whitespace (it strips first, and
stripping is idempotent). -/
theorem normalize_col_pyStrip (v : String) : normalize_col (pyStrip v) = normalize_col v := by
  unfold normalize_col pyStrip
  rw [show (String.mk (pyStripL v.data)).data = pyStripL v.data from rfl, pyStripL_idem]

/-- The §4.2 equivalence table as a lookup: the normalized alias key of a
column name, mapped to the canonical field it denotes (`none` for
unrecognized keys).  The lists mirror app.py:76-87. -/
def lookupTarget (a : String) : Option String :=
  if a ∈ ["position", "rank", "chart position"] then some "Position"
  else if a ∈ ["track name", "track", "trackname", "song", "title"] then some "Track"
  else if a ∈ ["artist", "artist name", "artist names", "artistname", "artistnames"] then
    some "Artist"
  else if a ∈ ["streams", "stream"] then some "Streams"
  else if a ∈ ["url", "track url", "spotify url"] then some "URL"
  else if a ∈ ["uri"] then some "URI"
  else none

theorem renameTarget_of_normcol {v a target : String} (hv : normalize_col v = a)
    (h : lookupTarget a = some target) : renameTarget v = target := by
  unfold renameTarget
  unfold lookupTarget at h
  rw [hv]
  split_ifs at h ⊢ <;> simp_all

theorem renameTarget_pyStrip_canonical {a t : String} (h : lookupTarget a = some t) :
    renameTarget (pyStrip t) = t := by
  unfold lookupTarget at h
  split_ifs at h <;> (injection h with h2; subst h2; decide)

theorem normcol_fixed_of_alias {a t : String} (h : lookupTarget a = some t) :
    normalize_col a = a := by
  unfold lookupTarget at h
  split_ifs at h with h1 h2 h3 h4 h5 h6
  · fin_cases h1 <;> decide
  · fin_cases h2 <;> decide
  · fin_cases h3 <;> decide
  · fin_cases h4 <;> decide
  · fin_cases h5 <;> decide
  · fin_cases h6 <;> decide

/-- Replace the `i`-th column name of a table. -/
def setColName (t : RawTable) (i : Nat) (name : String) : RawTable :=
  { header := t.header.set i name, rows := t.rows }

/-- **C2**: for every alias of the equivalence table (`lookupTarget alias =
some target`), every case/spacing/whitespace variant of it (every `v` with
`normalize_col v = alias`; each listed alias is its own normal form, first
conjunct), every raw table and every column position, normalizing the table
with the variant as the column name yields exactly the same result as
normalizing it with the canonical name. -/
theorem C2_alias_equivalence :
    (∀ a t : String, lookupTarget a = some t → normalize_col a = a) ∧
    ∀ (d : Nat) (tbl : RawTable) (i : Nat) (v a target : String),
      lookupTarget a = some target →
      normalize_col v = a →
      normalizeSource d (setColName tbl i v) = normalizeSource d (setColName tbl i target) := by
  refine ⟨fun a t h => normcol_fixed_of_alias h, ?_⟩
  intro d tbl i v a target hlt hv
  have hsv : renameTarget (pyStrip v) = target :=
    renameTarget_of_normcol (by rw [normalize_col_pyStrip]; exact hv) hlt
  have hst : renameTarget (pyStrip target) = target := renameTarget_pyStrip_canonical hlt
  suffices hs : stripRename (setColName tbl i v) = stripRename (setColName tbl i target) by
    unfold normalizeSource
    rw [hs]
  unfold stripRename setColName
  simp only [List.map_set]
  rw [hsv, hst]

/-- Table used for the C2 witness. -/
def c2Table : RawTable :=
  { header := ["x", "Streams"], rows := [[Cell.str "3", Cell.str "9"]] }

/-- Witness for C2 at concrete inputs: `" Chart_Position "` is a spacing and
case variant of the alias `"chart position"` and normalizes identically to
the canonical `"Position"`. -/
theorem C2_alias_equivalence_witness :
    normalize_col "rank" = "rank" ∧
    normalizeSource 0 (setColName c2Table 0 " Chart_Position ") =
      normalizeSource 0 (setColName c2Table 0 "Position") :=
  ⟨C2_alias_equivalence.1 "rank" "Position" (by decide),
   C2_alias_equivalence.2 0 c2Table 0 " Chart_Position " "chart position" "Position"
     (by decide) (by decide)⟩

/-! ## C10: the canonical schema invariant of the merged table -/

theorem hasCol_defaultCol_self (t : RawTable) (n : String) (v : Cell) :
    hasCol (if hasCol t n = true then t else setColConst t n v) n = true := by
  split
  · next h => exact h
  · exact hasCol_setColConst_self t n v

/-- Every table produced by `normalizeSource` has all six canonical columns:
`Position`/`Streams` are required by the gate, `Track`/`Artist` are defaulted
to `"Unknown"` when absent, `URL` is always synthesized when absent, and the
file date is always attached as `Date`. -/
theorem normalizeSource_canonical_cols {d : Nat} {t u : RawTable}
    (h : normalizeSource d t = some u) : ∀ c ∈ canonicalCols, hasCol u c = true := by
  unfold normalizeSource at h
  by_cases hg : (hasCol (ensureUrl (stripRename t)) "Position" &&
      hasCol (ensureUrl (stripRename t)) "Streams") = true
  case neg => rw [if_neg hg] at h; cases h
  rw [if_pos hg] at h
  have hu := Option.some.inj h
  have hgP : hasCol (ensureUrl (stripRename t)) "Position" = true := (Bool.and_eq_true _ _ ▸ hg).1
  have hgS : hasCol (ensureUrl (stripRename t)) "Streams" = true := (Bool.and_eq_true _ _ ▸ hg).2
  intro c hc
  rw [← hu, hasCol_dropNa]
  fin_cases hc
  · exact hasCol_setColConst_self _ _ _
  · refine hasCol_setColConst_of _ _ ?_
    rw [hasCol_mapCol, hasCol_mapCol]
    exact hasCol_defaultCol_of _ _ (hasCol_defaultCol_of _ _ hgP)
  · refine hasCol_setColConst_of _ _ ?_
    rw [hasCol_mapCol, hasCol_mapCol]
    exact hasCol_defaultCol_of _ _ (hasCol_defaultCol_self _ _ _)
  · refine hasCol_setColConst_of _ _ ?_
    rw [hasCol_mapCol, hasCol_mapCol]
    exact hasCol_defaultCol_self _ _ _
  · refine hasCol_setColConst_of _ _ ?_
    rw [hasCol_mapCol, hasCol_mapCol]
    exact hasCol_defaultCol_of _ _ (hasCol_defaultCol_of _ _ hgS)
  · refine hasCol_setColConst_of _ _ ?_
    rw [hasCol_mapCol, hasCol_mapCol]
    exact hasCol_defaultCol_of _ _
      (hasCol_defaultCol_of _ _ (hasCol_ensureUrl_url (stripRename t)))

theorem mem_foldl_unionStep (c : String) (ts : List RawTable) :
    ∀ acc : List String, (c ∈ acc ∨ ∃ t ∈ ts, c ∈ t.header) →
      c ∈ ts.foldl unionStep acc := by
  induction ts with
  | nil =>
      intro acc h
      rcases h with h | ⟨t, ht, _⟩
      · exact h
      · cases ht
  | cons t0 ts0 ih =>
      intro acc h
      rw [List.foldl_cons]
      apply ih
      rcases h with h | ⟨t, hmem, hc⟩
      · exact Or.inl (List.mem_append_left _ h)
      · rcases List.mem_cons.mp hmem with rfl | hmem0
        · by_cases hacc : c ∈ acc
          · exact Or.inl (List.mem_append_left _ hacc)
          · refine Or.inl (List.mem_append_right _ ?_)
            refine List.mem_filter.mpr ⟨hc, ?_⟩
            simp [hacc]
        · exact Or.inr ⟨t, hmem0, hc⟩

theorem mem_unionHeaders {c : String} {t : RawTable} {ts : List RawTable}
    (ht : t ∈ ts) (hc : c ∈ t.header) : c ∈ unionHeaders ts :=
  mem_foldl_unionStep c ts [] (Or.inr ⟨t, ht, hc⟩)

/-- **C10**: the canonical-schema invariant.  Every table produced by per-source
normalization carries all six canonical columns (`URL` synthesized,
`Track`/`Artist` defaulted, `Date` attached, `Position`/`Streams` gated), and
consequently a non-empty merged table has exactly the six canonical columns in
the fixed order `Date, Position, Track, Artist, Streams, URL`. -/
theorem C10_canonical_schema :
    (∀ (d : Nat) (t u : RawTable), normalizeSource d t = some u →
        ∀ c ∈ canonicalCols, hasCol u c = true) ∧
    (∀ sources : List (Option Nat × RawTable),
        (load_local_data sources).rows ≠ [] →
        (load_local_data sources).header = canonicalCols) := by
  refine ⟨fun d t u h => normalizeSource_canonical_cols h, ?_⟩
  intro sources hne
  unfold load_local_data at hne ⊢
  by_cases he : (sources.filterMap (fun s => s.1.bind (fun d => normalizeSource d s.2))).isEmpty
    = true
  · rw [if_pos he] at hne
    exact absurd rfl hne
  · rw [if_neg he] at hne ⊢
    rw [header_mapCol, header_mapCol]
    show (keepCanonical _).header = canonicalCols
    have htne : sources.filterMap (fun s => s.1.bind (fun d => normalizeSource d s.2)) ≠ [] := by
      intro hnil
      rw [hnil] at he
      exact he rfl
    obtain ⟨t0, ht0⟩ := List.exists_mem_of_ne_nil _ htne
    obtain ⟨s0, _, hs0⟩ := List.mem_filterMap.mp ht0
    obtain ⟨d0, _, hd0⟩ := Option.bind_eq_some.mp hs0
    have hall : ∀ c ∈ canonicalCols,
        hasCol (concatTables (sources.filterMap
          (fun s => s.1.bind (fun d => normalizeSource d s.2)))) c = true := by
      intro c hc
      rw [hasCol_iff_mem]
      show c ∈ unionHeaders _
      refine mem_unionHeaders ht0 ?_
      rw [← hasCol_iff_mem]
      exact normalizeSource_canonical_cols hd0 c hc
    show canonicalCols.filter _ = canonicalCols
    exact List.filter_eq_self.mpr hall

/-- Witness for C10 at concrete inputs. -/
theorem C10_canonical_schema_witness :
    hasCol zeroPosNormalized "URL" = true ∧
    (load_local_data [(some 0, zeroPosSource)]).header = canonicalCols :=
  ⟨C10_canonical_schema.1 0 zeroPosSource zeroPosNormalized (by decide) "URL" (by decide),
   C10_canonical_schema.2 [(some 0, zeroPosSource)] (by decide)⟩

/-! ## C9: idempotence of normalization (round trip through a canonical CSV) -/

theorem natDigits_chars {n : Nat} {c : Char} (hc : c ∈ natDigits n) :
    isDig c = true ∧ c.isWhitespace = false ∧ c ≠ '-' ∧ c ≠ '+' := by
  induction n using Nat.strong_induction_on with
  | _ n ih =>
      unfold natDigits at hc
      split at hc
      · next h =>
          rw [List.mem_singleton] at hc
          subst hc
          clear ih
          interval_cases n <;> exact ⟨by decide, by decide, by decide, by decide⟩
      · next h =>
          rw [List.mem_append] at hc
          rcases hc with hc | hc
          · exact ih (n / 10) (Nat.div_lt_self (by omega) (by omega)) hc
          · rw [List.mem_singleton] at hc
            subst hc
            obtain ⟨m, hm, hmeq⟩ : ∃ m, m < 10 ∧ n % 10 = m :=
              ⟨n % 10, Nat.mod_lt _ (by omega), rfl⟩
            rw [hmeq]
            interval_cases m <;> exact ⟨by decide, by decide, by decide, by decide⟩

theorem natDigits_ne_nil (n : Nat) : natDigits n ≠ [] := by
  unfold natDigits
  split
  · simp
  · simp

theorem digitsVal_append (xs : List Char) (c : Char) :
    digitsVal (xs ++ [c]) = digitsVal xs * 10 + digVal c := by
  unfold digitsVal
  rw [List.foldl_append]
  rfl

theorem digitsVal_natDigits (n : Nat) : digitsVal (natDigits n) = n := by
  induction n using Nat.strong_induction_on with
  | _ n ih =>
      unfold natDigits
      split
      · next h =>
          clear ih
          interval_cases n <;> decide
      · next h =>
          rw [digitsVal_append, ih (n / 10) (Nat.div_lt_self (by omega) (by omega))]
          have hlt : n % 10 < 10 := Nat.mod_lt _ (by omega)
          obtain ⟨m, hm, hmeq⟩ : ∃ m, m < 10 ∧ n % 10 = m := ⟨n % 10, hlt, rfl⟩
          rw [hmeq]
          have hd : digVal (Char.ofNat (48 + m)) = m := by interval_cases m <;> decide
          rw [hd, ← hmeq]
          omega

theorem dropWhile_eq_self_of_all {p : Char → Bool} {l : List Char}
    (h : ∀ x ∈ l, p x = false) : List.dropWhile p l = l := by
  cases l with
  | nil => rfl
  | cons a as =>
      rw [List.dropWhile_cons, if_neg (by simp [h a (List.mem_cons_self a as)])]

theorem pyStripL_of_no_ws {cs : List Char} (h : ∀ c ∈ cs, c.isWhitespace = false) :
    pyStripL cs = cs := by
  unfold pyStripL dropWs
  rw [dropWhile_eq_self_of_all (fun c hc => h c (List.mem_reverse.mp hc)),
    List.reverse_reverse, dropWhile_eq_self_of_all h]

theorem parseUnsigned_natDigits (n : Nat) : parseUnsigned (natDigits n) = some (n : ℚ) := by
  have hall : ∀ c ∈ natDigits n, isDig c = true := fun c hc => (natDigits_chars hc).1
  unfold parseUnsigned
  rw [List.takeWhile_eq_self_iff.mpr hall,
    show List.dropWhile isDig (natDigits n) = [] from List.dropWhile_eq_nil_iff.mpr hall]
  dsimp only
  rw [if_neg (by simpa using natDigits_ne_nil n), digitsVal_natDigits]

theorem parseNum_renderInt (i : Int) : parseNum (renderInt i) = some (i : ℚ) := by
  unfold renderInt parseNum
  by_cases hneg : i < 0
  · rw [if_pos hneg]
    have hstr : pyStripL (String.mk ('-' :: natDigits i.natAbs)).data =
        '-' :: natDigits i.natAbs := by
      refine pyStripL_of_no_ws ?_
      intro c hc
      rcases List.mem_cons.mp hc with rfl | hc0
      · decide
      · exact (natDigits_chars hc0).2.1
    rw [hstr]
    dsimp only
    rw [if_pos rfl, parseUnsigned_natDigits]
    show some (-(i.natAbs : ℚ)) = some (i : ℚ)
    congr 1
    push_cast [Int.cast_natAbs]
    rw [abs_of_neg (by exact_mod_cast hneg)]
    ring
  · rw [if_neg hneg]
    have hstr : pyStripL (String.mk (natDigits i.natAbs)).data = natDigits i.natAbs :=
      pyStripL_of_no_ws (fun c hc => (natDigits_chars hc).2.1)
    rw [hstr]
    cases hnd : natDigits i.natAbs with
    | nil => exact absurd hnd (natDigits_ne_nil _)
    | cons c cs =>
        have hch := natDigits_chars (hnd ▸ List.mem_cons_self c cs)
        dsimp only
        rw [if_neg hch.2.2.1, if_neg hch.2.2.2, ← hnd, parseUnsigned_natDigits]
        congr 1
        have h1 : (i.natAbs : ℤ) = i := Int.natAbs_of_nonneg (by omega)
        calc ((i.natAbs : Nat) : ℚ) = ((i.natAbs : ℤ) : ℚ) := (Int.cast_natCast _).symm
          _ = (i : ℚ) := by rw [h1]

/-- The row of the re-normalized table corresponding to one entry. -/
def finalRow (d : Nat) (e : Entry) : List Cell :=
  [Cell.date d, Cell.num e.position, Cell.str e.track, Cell.str e.artist,
   Cell.num e.streams, Cell.str e.url]

theorem ratCast_num {q : ℚ} (h : q.den = 1) : ((q.num : ℚ)) = q := by
  have h2 := Rat.num_div_den q
  rw [h] at h2
  simpa using h2

theorem transformRow (d : Nat) (e : Entry) (hp : e.position.den = 1)
    (hs : e.streams.den = 1) :
    (((renderRow e).set 1 (toNumericCell (cellAt (renderRow e) 1))).set 4
        (toNumericCell (cellAt
          ((renderRow e).set 1 (toNumericCell (cellAt (renderRow e) 1))) 4))).set 0
      (Cell.date d) = finalRow d e := by
  simp [renderRow, finalRow, cellAt, List.getD, toNumericCell, parseNum_renderInt,
    ratCast_num hp, ratCast_num hs]

theorem mapCol_mk {hs : List String} {rs : List (List Cell)} {n : String} {i : Nat}
    (f : Cell → Cell) (hi : List.indexOf? n hs = some i) :
    mapCol ⟨hs, rs⟩ n f = ⟨hs, rs.map (fun r => r.set i (f (cellAt r i)))⟩ := by
  unfold mapCol
  have hci : colIdx ⟨hs, rs⟩ n = some i := hi
  rw [hci]

theorem setColConst_mk {hs : List String} {rs : List (List Cell)} {n : String} {i : Nat}
    (v : Cell) (hi : List.indexOf? n hs = some i) :
    setColConst ⟨hs, rs⟩ n v = ⟨hs, rs.map (fun r => r.set i v)⟩ := by
  unfold setColConst
  have hci : colIdx ⟨hs, rs⟩ n = some i := hi
  rw [hci]

/-- Pushing a canonical CSV rendered from entries back through the Schema
Normalizer produces the expected typed table. -/
theorem normalizeSource_entriesToCsv (d : Nat) (es : List Entry)
    (h : ∀ e ∈ es, e.position.den = 1 ∧ e.streams.den = 1) :
    normalizeSource d (entriesToCsv es) =
      some ⟨canonicalCols, es.map (finalRow d)⟩ := by
  unfold normalizeSource
  dsimp only
  rw [if_pos (show (hasCol (ensureUrl (stripRename (entriesToCsv es))) "Position" &&
      hasCol (ensureUrl (stripRename (entriesToCsv es))) "Streams") = true from rfl)]
  rw [if_pos (show hasCol (ensureUrl (stripRename (entriesToCsv es))) "Track" = true from rfl)]
  rw [if_pos (show hasCol (ensureUrl (stripRename (entriesToCsv es))) "Artist" = true from rfl)]
  rw [show ensureUrl (stripRename (entriesToCsv es)) =
    (⟨canonicalCols, es.map renderRow⟩ : RawTable) from rfl]
  rw [mapCol_mk toNumericCell (show List.indexOf? "Position" canonicalCols = some 1 from rfl)]
  rw [mapCol_mk toNumericCell (show List.indexOf? "Streams" canonicalCols = some 4 from rfl)]
  rw [setColConst_mk (Cell.date d) (show List.indexOf? "Date" canonicalCols = some 0 from rfl)]
  have hrows : (((es.map renderRow).map
        (fun r => r.set 1 (toNumericCell (cellAt r 1)))).map
        (fun r => r.set 4 (toNumericCell (cellAt r 4)))).map
        (fun r => r.set 0 (Cell.date d)) = es.map (finalRow d) := by
    rw [List.map_map, List.map_map, List.map_map]
    refine List.map_congr_left ?_
    intro e he
    exact transformRow d e (h e he).1 (h e he).2
  rw [hrows]
  have hdrop : dropNa ⟨canonicalCols, es.map (finalRow d)⟩ ["Position", "Streams"] =
      (⟨canonicalCols, es.map (finalRow d)⟩ : RawTable) := by
    unfold dropNa
    show RawTable.mk _ _ = RawTable.mk _ _
    congr 1
    refine List.filter_eq_self.mpr ?_
    intro r hr
    obtain ⟨e, _, rfl⟩ := List.mem_map.mp hr
    rfl
  rw [hdrop]

/-- **C9**: idempotence of normalization.  A table that already uses exactly
the canonical column names and holds valid values (entries of one source
date, with integer position/streams as every chart export has) passes through
the Schema Normalizer unchanged: re-normalizing yields exactly the same
`ChartEntry` list. -/
theorem C9_idempotent_normalization :
    ∀ (d : Nat) (es : List Entry),
      (∀ e ∈ es, e.date = d ∧ e.position.den = 1 ∧ e.streams.den = 1) →
      (normalizeSource d (entriesToCsv es)).map entriesOf = some es := by
  intro d es h
  rw [normalizeSource_entriesToCsv d es (fun e he => ⟨(h e he).2.1, (h e he).2.2⟩)]
  show some (entriesOf ⟨canonicalCols, es.map (finalRow d)⟩) = some es
  congr 1
  unfold entriesOf
  show (es.map (finalRow d)).map _ = es
  rw [List.map_map]
  refine Eq.trans (List.map_congr_left ?_) (List.map_id es)
  intro e he
  show ({ date := d, position := e.position, track := e.track, artist := e.artist,
          streams := e.streams, url := e.url } : Entry) = e
  rw [← (h e he).1]

/-- Witness entry for C9. -/
def c9Entry : Entry :=
  { date := 3, position := 2, track := "Song", artist := "Band", streams := 777, url := "u" }

/-- Witness for C9 at a concrete input. -/
theorem C9_idempotent_normalization_witness :
    (normalizeSource 3 (entriesToCsv [c9Entry])).map entriesOf = some [c9Entry] :=
  C9_idempotent_normalization 3 [c9Entry]
    (by intro e he
        rw [List.mem_singleton] at he
        subst he
        exact ⟨rfl, by decide, by decide⟩)

/-! ## C1: the mover computation -/

theorem lookup_updAssoc (m : List (String × ℚ)) (k : String) (v : ℚ) (tr : String) :
    List.lookup tr (updAssoc m k v) = if tr = k then some v else List.lookup tr m := by
  induction m with
  | nil =>
      by_cases h : tr = k
      · subst h; simp [updAssoc, List.lookup]
      · have hb : (tr == k) = false := by simp [h]
        simp [updAssoc, List.lookup, hb, h]
  | cons p rest ih =>
      obtain ⟨k0, v0⟩ := p
      by_cases hk : k0 = k
      · subst hk
        by_cases h : tr = k0
        · subst h; simp [updAssoc, List.lookup]
        · have hb : (tr == k0) = false := by simp [h]
          simp [updAssoc, List.lookup, hb, h]
      · unfold updAssoc
        rw [if_neg hk]
        by_cases h : tr = k0
        · subst h
          have hb : (tr == tr) = true := by simp
          simp [List.lookup, hb, hk]
        · have hb : (tr == k0) = false := by simp [h]
          simp [List.lookup, hb, ih]

theorem lastPosOf_append (seen : List Entry) (e : Entry) (tr : String) :
    lastPosOf (seen ++ [e]) tr =
      if e.track = tr then some e.position else lastPosOf seen tr := by
  unfold lastPosOf
  rw [List.filter_append]
  by_cases h : e.track = tr
  · simp [List.filter_cons, h, List.getLast?_append]
  · simp [List.filter_cons, h]

theorem shiftPrev_spec (l : List Entry) :
    ∀ (m : List (String × ℚ)) (seen : List Entry),
      (∀ tr, List.lookup tr m = lastPosOf seen tr) →
      ((shiftPrev m l).filterMap fun pr =>
          pr.2.map (fun p => (pr.1.track, pr.1.artist, p - pr.1.position)))
        = specDeltasAux seen l := by
  induction l with
  | nil => intro m seen _; rfl
  | cons e rest ih =>
      intro m seen hinv
      have hup : ∀ tr, List.lookup tr (updAssoc m e.track e.position) =
          lastPosOf (seen ++ [e]) tr := by
        intro tr
        rw [lookup_updAssoc, lastPosOf_append]
        by_cases h : tr = e.track
        · rw [if_pos h, if_pos h.symm]
        · rw [if_neg h, if_neg (fun he => h he.symm), hinv tr]
      unfold shiftPrev specDeltasAux
      rw [List.filterMap_cons]
      rw [hinv e.track]
      cases hl : lastPosOf seen e.track with
      | none =>
          dsimp only
          exact ih _ _ hup
      | some p =>
          rw [show Option.map (fun p => (e.track, e.artist, p - e.position)) (some p) =
            some (e.track, e.artist, p - e.position) from rfl]
          dsimp only
          rw [ih _ _ hup]

theorem codeDeltas_eq_specDeltas (rows : List Entry) : codeDeltas rows = specDeltas rows := by
  unfold codeDeltas specDeltas
  exact shiftPrev_spec (sortByDate rows) [] [] (fun tr => rfl)

theorem roundHalfEven_mono {a b : ℚ} (h : a ≤ b) : roundHalfEven a ≤ roundHalfEven b := by
  unfold roundHalfEven
  have hf : ⌊a⌋ ≤ ⌊b⌋ := Int.floor_le_floor h
  rcases lt_or_eq_of_le hf with hlt | heq
  · have h1 : (if a - (⌊a⌋ : ℚ) < 1 / 2 then ⌊a⌋
        else if 1 / 2 < a - (⌊a⌋ : ℚ) then ⌊a⌋ + 1
        else if ⌊a⌋ % 2 = 0 then ⌊a⌋ else ⌊a⌋ + 1) ≤ ⌊a⌋ + 1 := by
      split_ifs <;> omega
    have h2 : ⌊b⌋ ≤ (if b - (⌊b⌋ : ℚ) < 1 / 2 then ⌊b⌋
        else if 1 / 2 < b - (⌊b⌋ : ℚ) then ⌊b⌋ + 1
        else if ⌊b⌋ % 2 = 0 then ⌊b⌋ else ⌊b⌋ + 1) := by
      split_ifs <;> omega
    omega
  · rw [← heq]
    have hab : a - (⌊a⌋ : ℚ) ≤ b - (⌊a⌋ : ℚ) := by linarith
    split_ifs <;> first | omega | linarith

theorem moversFromDeltas_len (ds : List (String × String × ℚ)) :
    (moversFromDeltas ds).length ≤ 10 := by
  unfold moversFromDeltas
  dsimp only
  rw [List.length_map, List.length_take]
  exact min_le_left _ _

theorem moversFromDeltas_sorted (ds : List (String × String × ℚ)) :
    List.Pairwise (fun a b : Mover => b.best_improvement ≤ a.best_improvement)
      (moversFromDeltas ds) := by
  unfold moversFromDeltas
  dsimp only
  haveI htot : IsTotal ((String × String) × ℚ × ℚ)
      (fun a b => b.2.1 ≤ a.2.1) := ⟨fun a b => Or.symm (le_total a.2.1 b.2.1)⟩
  haveI htrans : IsTrans ((String × String) × ℚ × ℚ)
      (fun a b => b.2.1 ≤ a.2.1) := ⟨fun _ _ _ hab hbc => le_trans hbc hab⟩
  have hsorted := List.sorted_insertionSort (fun a b : (String × String) × ℚ × ℚ => b.2.1 ≤ a.2.1)
    (((List.insertionSort keyLe ((ds.map fun x => (x.1, x.2.1)).dedup))).map
      (fun k => (k, maxQ (deltasFor ds k), minQ (deltasFor ds k))))
  have htake := List.Pairwise.sublist (List.take_sublist 10 _) hsorted
  exact List.Pairwise.map _ (fun a b hab => roundHalfEven_mono hab) htake

theorem moversFromDeltas_mem {ds : List (String × String × ℚ)} {mv : Mover}
    (hmv : mv ∈ moversFromDeltas ds) :
    deltasFor ds (mv.track, mv.artist) ≠ [] ∧
    mv.best_improvement = roundHalfEven (maxQ (deltasFor ds (mv.track, mv.artist))) ∧
    mv.worst_drop = roundHalfEven (minQ (deltasFor ds (mv.track, mv.artist))) := by
  unfold moversFromDeltas at hmv
  dsimp only at hmv
  obtain ⟨g, hg_take, rfl⟩ := List.mem_map.mp hmv
  have hg_sorted := List.mem_of_mem_take hg_take
  have hg_gs := (List.Perm.mem_iff (List.perm_insertionSort _ _)).mp hg_sorted
  obtain ⟨k, hk, rfl⟩ := List.mem_map.mp hg_gs
  have hk2 := (List.Perm.mem_iff (List.perm_insertionSort _ _)).mp hk
  have hk3 := List.mem_dedup.mp hk2
  obtain ⟨x, hx, hkx⟩ := List.mem_map.mp hk3
  have hxk : x.2.2 ∈ deltasFor ds ((k.1, k.2) : String × String) := by
    unfold deltasFor
    refine List.mem_map.mpr ⟨x, ?_, rfl⟩
    refine List.mem_filter.mpr ⟨hx, ?_⟩
    rw [← hkx]
    simp
  exact ⟨List.ne_nil_of_mem hxk, rfl, rfl⟩

/-- **C1**: the mover table equals the claim-side computation — sort the
filtered entries by date ascending, give every appearance after a track's
first the delta `previous_position - current_position`, group the delta rows
by `(track, artist)` with `best_improvement = max` and `worst_drop = min`,
sort descending by `best_improvement`, truncate to 10 and round — and
consequently: at most 10 rows, sorted descending by `best_improvement`, and
every listed pair has at least one computed delta, its fields being the
rounded max/min of that pair's deltas. -/
theorem C1_mover_computation (rows : List Entry) :
    movers rows = moversSpec rows ∧
    (movers rows).length ≤ 10 ∧
    List.Pairwise (fun a b : Mover => b.best_improvement ≤ a.best_improvement) (movers rows) ∧
    ∀ mv ∈ movers rows,
      deltasFor (specDeltas rows) (mv.track, mv.artist) ≠ [] ∧
      mv.best_improvement =
        roundHalfEven (maxQ (deltasFor (specDeltas rows) (mv.track, mv.artist))) ∧
      mv.worst_drop =
        roundHalfEven (minQ (deltasFor (specDeltas rows) (mv.track, mv.artist))) := by
  have heq : movers rows = moversSpec rows := by
    unfold movers moversSpec
    rw [codeDeltas_eq_specDeltas]
  refine ⟨heq, moversFromDeltas_len _, moversFromDeltas_sorted _, ?_⟩
  intro mv hmv
  rw [heq] at hmv
  exact moversFromDeltas_mem hmv

/-- The three-day single-track example of §8.6. -/
def c1Rows : List Entry :=
  [{ date := 1, position := 10, track := "X", artist := "A", streams := 0, url := "" },
   { date := 2, position := 4, track := "X", artist := "A", streams := 0, url := "" },
   { date := 3, position := 12, track := "X", artist := "A", streams := 0, url := "" }]

/-- Witness for C1 at the §8.6 example: the track improves by 6 then drops by
8, giving `best_improvement = 6`, `worst_drop = -8`. -/
theorem C1_mover_computation_witness :
    movers c1Rows = moversSpec c1Rows ∧
    deltasFor (specDeltas c1Rows)
      (({ track := "X", artist := "A", best_improvement := 6, worst_drop := -8 } : Mover).track,
       ({ track := "X", artist := "A", best_improvement := 6, worst_drop := -8 } : Mover).artist)
      ≠ [] :=
  ⟨(C1_mover_computation c1Rows).1,
   ((C1_mover_computation c1Rows).2.2.2
     { track := "X", artist := "A", best_improvement := 6, worst_drop := -8 }
     (by with_unfolding_all decide)).1⟩

end SpotifyDash
